import Mathlib

/-!
Verification of the `concordium-std-derive` procedural-macro crate
(`src/concordium-std-derive/src/lib.rs`).

The development shallowly embeds:
* the attribute grammar and its validation helpers (`get_attribute_value`,
  `get_concordium_field_attributes`, `find_field_attribute_value`,
  `find_length_attribute`);
* the binary wire format produced by the code that `impl_serial` /
  `impl_deserial` generate, as a deep embedding of the supported type
  grammar (structs, enums, length-prefixed containers);
* the required-argument bookkeeping and argument-count check of
  `init_worker` / `receive_worker`;
* the runtime behaviour of the generated entry-point wrappers.

The primitive scalar codecs and the container helpers
(`serial_vector_no_length`, `deserial_map_no_length`, ...) live in the
`concordium-std` crate, outside the file under verification; they are
modelled from the spec (little-endian fixed-width integers, count-prefixed
element sequences, BTreeMap/BTreeSet iteration in ascending key order).
-/

set_option maxHeartbeats 1000000

namespace CSD

/-! ### Byte-level primitives (modelled from the spec) -/

/-- Modelled from the spec: the little-endian encoding of `n` on `w` bytes.
This is both the serialization of the fixed-width unsigned integers `u8`,
`u16`, `u32`, `u64` of `concordium-std` and the effect of the `len as uN`
cast in the code `impl_serial_field` generates: the value is reduced
modulo `256 ^ w`. -/
def leBytes : Nat → Nat → List Nat
  | 0, _ => []
  | w + 1, n => n % 256 :: leBytes w (n / 256)

/-- Modelled from the spec: read `w` bytes little-endian
(`uN::deserial` of `concordium-std`); fails on truncated input. -/
def readLE : Nat → List Nat → Option (Nat × List Nat)
  | 0, bs => some (0, bs)
  | _ + 1, [] => none
  | w + 1, b :: bs =>
    match readLE w bs with
    | some (n, r) => some (b + 256 * n, r)
    | none => none

/-- Modelled from the spec: read exactly `n` raw bytes
(`deserial_string` of `concordium-std`, with the string modelled as its
byte sequence); fails on truncated input. -/
def readBytes (n : Nat) (bs : List Nat) : Option (List Nat × List Nat) :=
  if n ≤ bs.length then some (bs.take n, bs.drop n) else none

/-- Keys are strictly increasing, each also above the optional
previous key `prev`.  This is the check `deserial_map_no_length` /
`deserial_set_no_length` perform incrementally. -/
def chainLt : Option Nat → List Nat → Bool
  | _, [] => true
  | none, k :: ks => chainLt (some k) ks
  | some p, k :: ks => decide (p < k) && chainLt (some k) ks

/-- A list of keys in strictly increasing order (the `BTreeMap`/`BTreeSet`
iteration-order invariant). -/
def strictIncr (ks : List Nat) : Bool := chainLt none ks

/-! ### Attribute model (`syn` subset used by the macro code) -/

/-- A `syn::Lit`, reduced to the cases the derive code distinguishes:
integer literals, string literals and anything else; each carries its
source span, modelled as a number. -/
inductive Lit where
  | int (value : Nat) (span : Nat)
  | str (value : String) (span : Nat)
  | other (span : Nat)
  deriving DecidableEq, Repr

/-- The span of a literal. -/
def Lit.span : Lit → Nat
  | .int _ s => s
  | .str _ s => s
  | .other s => s

/-- A `syn::Meta` item: bare path `name`, `name = lit`, or `name(...)`. -/
inductive Meta where
  | nameValue (name : String) (lit : Lit) (span : Nat)
  | path (name : String) (span : Nat)
  | list (name : String) (span : Nat)
  deriving DecidableEq, Repr

/-- The path of a meta item, as a string. -/
def Meta.name : Meta → String
  | .nameValue n _ _ => n
  | .path n _ => n
  | .list n _ => n

/-- The span of a meta item. -/
def Meta.span : Meta → Nat
  | .nameValue _ _ s => s
  | .path _ s => s
  | .list _ s => s

/-- A `syn::NestedMeta`: an inner meta item or a bare literal. -/
inductive NestedMeta where
  | meta (m : Meta)
  | lit (l : Lit)
  deriving DecidableEq, Repr

/-- One attribute on a field: a `#[concordium(...)]` attribute whose
argument list parsed, or anything else (a non-`concordium` attribute, or
one whose `parse_meta` failed) — the source drops the latter silently
(`_ => Punctuated::new()` in `get_concordium_field_attributes`). -/
inductive Attr where
  | concordium (items : List NestedMeta)
  | other
  deriving DecidableEq, Repr

/-- Embeds `get_attribute_value`: scan the entry-point attribute list for
`name`; the first matching item decides the result (a duplicate later in
the list is never looked at).  A matching `name = "string"` yields the
string; a matching non-string value, bare path or list form is an error. -/
def get_attribute_value : List Meta → String → Except (Nat × String) (Option String)
  | [], _ => .ok none
  | .nameValue n l sp :: rest, name =>
    if n = name then
      match l with
      | .str v _ => .ok (some v)
      | _ => .error (sp, "The `" ++ name ++ "` attribute must be a string literal.")
    else get_attribute_value rest name
  | .path n sp :: rest, name =>
    if n = name then
      .error (sp, "The `" ++ name ++ "` attribute must have a string literal value.")
    else get_attribute_value rest name
  | .list n sp :: rest, name =>
    if n = name then
      .error (sp, "The `" ++ name ++ "` attribute must have a string literal value.")
    else get_attribute_value rest name

/-- Embeds `contains_attribute`. -/
def contains_attribute (metas : List Meta) (name : String) : Bool :=
  metas.any fun m => m.name = name

/-- Embeds the constant `VALID_CONCORDIUM_FIELD_ATTRIBUTES`. -/
def VALID_CONCORDIUM_FIELD_ATTRIBUTES : List String :=
  ["size_length", "set_size_length", "map_size_length", "string_size_length", "ensure_ordered"]

/-- The validation pass inside `get_concordium_field_attributes`: every
nested item must be a meta whose path is whitelisted; a bare literal or an
unknown name is an error.  Rust's `collect::<syn::Result<_>>` stops at the
first error, hence the short-circuiting recursion. -/
def validateNested : List NestedMeta → Except (Nat × String) (List Meta)
  | [] => .ok []
  | .meta m :: rest =>
    if VALID_CONCORDIUM_FIELD_ATTRIBUTES.contains m.name then
      match validateNested rest with
      | .ok ms => .ok (m :: ms)
      | .error e => .error e
    else
      .error (m.span,
        "The attribute '" ++ m.name ++ "' is not supported as a concordium field attribute.")
  | .lit l :: _ =>
    .error (l.span, "Literals are not supported in a concordium field attribute.")

/-- Embeds `get_concordium_field_attributes`: flatten the items of all
`#[concordium(...)]` attributes (other attributes contribute nothing) and
validate them. -/
def get_concordium_field_attributes (attrs : List Attr) : Except (Nat × String) (List Meta) :=
  validateNested
    ((attrs.map fun a => match a with | .concordium items => items | .other => []).flatten)

/-- The `name = value` occurrences of `target_attr`, in order (the
`filter_map` inside `find_field_attribute_value`). -/
def fieldAttrOccurrences (metas : List Meta) (target_attr : String) : List Lit :=
  metas.filterMap fun m =>
    match m with
    | .nameValue n l _ => if n = target_attr then some l else none
    | _ => none

/-- Embeds `find_field_attribute_value`.  An error is a combined
`syn::Error`, modelled as the list of its `(span, message)` entries.  With
more than one occurrence the combined error has one entry per occurrence
after the first (`attr_values[1]` and then `skip(2)` in the source). -/
def find_field_attribute_value (attrs : List Attr) (target_attr : String) :
    Except (List (Nat × String)) (Option Lit) :=
  match get_concordium_field_attributes attrs with
  | .error e => .error [e]
  | .ok metas =>
    match fieldAttrOccurrences metas target_attr with
    | [] => .ok none
    | [v] => .ok (some v)
    | _ :: v1 :: rest =>
      .error ((v1.span, "Attribute '" ++ target_attr ++ "' should only be specified once.") ::
        rest.map fun o => (o.span, "Attribute '" ++ target_attr ++ "' should only be specified once."))

/-- The `required_args` entries pushed by
`contract_function_optional_args_tokens`: an amount argument when
`payable`, then a logger argument when `enable_logger`. -/
def contract_function_optional_args (payable enable_logger : Bool) : List String :=
  (if payable then ["amount: Amount"] else []) ++
    (if enable_logger then ["logger: &mut impl HasLogger"] else [])

/-- The `required_args` list built by `init_worker`: the context first,
then the optional arguments, then — only on the `low_level` branch — a raw
state argument.  The default branch pushes no state argument: the init
function returns the new state instead of receiving it. -/
def init_required_args (payable enable_logger low_level : Bool) : List String :=
  ["ctx: &impl HasInitContext"] ++ contract_function_optional_args payable enable_logger ++
    (if low_level then ["state: &mut ContractState"] else [])

/-- The `required_args` list built by `receive_worker`: the context first,
then the optional arguments, then always a state argument — raw when
`low_level`, the user state type otherwise. -/
def receive_required_args (payable enable_logger low_level : Bool) : List String :=
  ["ctx: &impl HasReceiveContext"] ++ contract_function_optional_args payable enable_logger ++
    (if low_level then ["state: &mut ContractState"] else ["state: &mut MyState"])

/-- The argument-count check shared by `init_worker` and `receive_worker`
(lines 228-237 and 425-434): a declared argument count different from the
length of `required_args` is a generation-time error whose message
enumerates the expected argument list. -/
def arg_count_check (required_args : List String) (arg_count : Nat) : Except String Unit :=
  if arg_count ≠ required_args.length then
    .error ("Incorrect number of function arguments, the expected arguments are (" ++
      String.intercalate ", " required_args ++ ") ")
  else .ok ()

/-- The argument-count check as `init_worker` instantiates it. -/
def init_worker_arg_check (payable enable_logger low_level : Bool) (arg_count : Nat) :
    Except String Unit :=
  arg_count_check (init_required_args payable enable_logger low_level) arg_count

/-- The argument-count check as `receive_worker` instantiates it. -/
def receive_worker_arg_check (payable enable_logger low_level : Bool) (arg_count : Nat) :
    Except String Unit :=
  arg_count_check (receive_required_args payable enable_logger low_level) arg_count

/-! ### Runtime behaviour of the generated entry-point wrappers

The state store (`ContractState` of `concordium-std`) is modelled from the
spec as a byte array that is read from the start, can be rewound with
`seek(Start 0)`, and is overwritten from the current position by
serialization.  Each wrapper records the store operations it performs and
how many times it invokes the user function. -/

/-- An operation the generated wrapper performs on the state store. -/
inductive StoreEv where
  | read
  | seekStart (pos : Nat)
  | write (bytes : List Nat)
  deriving DecidableEq, Repr

/-- Whether a store operation is a seek or a write. -/
def StoreEv.isSeekOrWrite : StoreEv → Bool
  | .seekStart _ => true
  | .write _ => true
  | .read => false

/-- Outcome of one call of a generated exported function: the returned
status (`none` models `trap()`, which aborts instead of returning), the
state-store bytes after the call, the store operations performed, and the
number of invocations of the user function. -/
structure ExecResult where
  status : Option Int
  store : List Nat
  events : List StoreEv
  userCalls : Nat
  deriving DecidableEq, Repr

/-- Embeds the exported function `receive_worker` generates without
`low_level` (lines 396-423).  When not `payable`, a non-zero amount
returns -1 first (the check `contract_function_optional_args_tokens` emits
is placed before everything else).  Then the state is read and
deserialized; failure traps.  The user function runs on the deserialized
state; on `Err` the wrapper returns -1 immediately, on `Ok` it seeks to
the start and re-serializes (a serialization failure traps), returning the
action's tag. -/
def receiveWrapper {σ : Type} (payable : Bool) (amount_micro_gtu : Nat)
    (get_state : List Nat → Option σ) (serial_state : σ → Option (List Nat))
    (user_fn : σ → Except Unit (Int × σ)) (store : List Nat) : ExecResult :=
  if payable = false ∧ amount_micro_gtu ≠ 0 then
    ⟨some (-1), store, [], 0⟩
  else
    match get_state store with
    | none => ⟨none, store, [.read], 0⟩
    | some state =>
      match user_fn state with
      | .error _ => ⟨some (-1), store, [.read], 1⟩
      | .ok (tag, newState) =>
        match serial_state newState with
        | none => ⟨none, store, [.read, .seekStart 0], 1⟩
        | some bs => ⟨some tag, bs ++ store.drop bs.length, [.read, .seekStart 0, .write bs], 1⟩

/-- Embeds the exported function `init_worker` generates without
`low_level` (lines 207-226): amount gate first, then the user function; on
`Ok(state)` the state is serialized into the store (failure traps) and 0
is returned, on `Err` -1. -/
def initWrapper {σ : Type} (payable : Bool) (amount_micro_gtu : Nat)
    (serial_state : σ → Option (List Nat))
    (user_fn : Unit → Except Unit σ) (store : List Nat) : ExecResult :=
  if payable = false ∧ amount_micro_gtu ≠ 0 then
    ⟨some (-1), store, [], 0⟩
  else
    match user_fn () with
    | .ok state =>
      match serial_state state with
      | none => ⟨none, store, [], 1⟩
      | some bs => ⟨some 0, bs ++ store.drop bs.length, [.write bs], 1⟩
    | .error _ => ⟨some (-1), store, [], 1⟩

/-- Embeds the exported function `init_worker` generates with `low_level`
(lines 192-206): amount gate first; the user function receives the raw
store and returns only a status. -/
def initWrapperLowLevel (payable : Bool) (amount_micro_gtu : Nat)
    (user_fn : List Nat → Except Unit Unit × List Nat) (store : List Nat) : ExecResult :=
  if payable = false ∧ amount_micro_gtu ≠ 0 then
    ⟨some (-1), store, [], 0⟩
  else
    match user_fn store with
    | (.ok _, store1) => ⟨some 0, store1, [], 1⟩
    | (.error _, store1) => ⟨some (-1), store1, [], 1⟩

/-- Embeds the exported function `receive_worker` generates with
`low_level` (lines 375-392): amount gate first; the user function receives
the raw store and returns an action tag or an error. -/
def receiveWrapperLowLevel (payable : Bool) (amount_micro_gtu : Nat)
    (user_fn : List Nat → Except Unit Int × List Nat) (store : List Nat) : ExecResult :=
  if payable = false ∧ amount_micro_gtu ≠ 0 then
    ⟨some (-1), store, [], 0⟩
  else
    match user_fn store with
    | (.ok tag, store1) => ⟨some tag, store1, [], 1⟩
    | (.error _, store1) => ⟨some (-1), store1, [], 1⟩

/-! ### The wire format generated by `impl_serial` / `impl_deserial`

The supported type grammar, as a deep embedding.  A field either
delegates to its own codec (covered by nesting) or carries one of the
four length attributes resolved by `find_length_attribute`; map and set
keys must be ordered, modelled here as the fixed-width scalars.  A struct
with unit fields is `struct []`, named and unnamed fields are
byte-identical (the generated code differs only in binder patterns), so
both are `struct` over the field types in declaration order. -/

/-- The fixed-width scalar types whose codecs `concordium-std` provides. -/
inductive ScalarTy where
  | u8 | u16 | u32 | u64
  deriving DecidableEq, Repr

/-- Byte width of a scalar type. -/
def ScalarTy.width : ScalarTy → Nat
  | .u8 => 1
  | .u16 => 2
  | .u32 => 4
  | .u64 => 8

/-- The supported type grammar.  `vecLen w e` is a `Vec<e>` field with
`#[concordium(size_length = w)]`, `strLen w` a `String` field with
`string_size_length = w`, `mapLen w ord k v` a `BTreeMap<k, v>` field with
`map_size_length = w` (`ord` records `ensure_ordered`, which only the
derived `Deserial` uses), `setLen` likewise for `BTreeSet`, and `enum`
lists each variant's field types in declaration order. -/
inductive Ty where
  | scalar (s : ScalarTy)
  | vecLen (width : Nat) (elem : Ty)
  | strLen (width : Nat)
  | mapLen (width : Nat) (ensureOrdered : Bool) (key : ScalarTy) (value : Ty)
  | setLen (width : Nat) (ensureOrdered : Bool) (elem : ScalarTy)
  | struct (fields : List Ty)
  | enum (variants : List (List Ty))

/-- Values of the grammar.  A map is its sorted entry list (the `BTreeMap`
representation), a set its sorted element list, an enum value carries the
zero-based declaration index of its variant. -/
inductive Val where
  | num (n : Nat)
  | str (bytes : List Nat)
  | list (elems : List Val)
  | map (entries : List (Nat × Val))
  | set (elems : List Nat)
  | struct (fields : List Val)
  | enum (tag : Nat) (fields : List Val)

/-- The tag width `impl_serial` chooses from the variant count
(lines 936-944); `none` models the `unimplemented!` panic — a
generation-time failure — for more than 65536 variants. -/
def serialTagWidth (variants : Nat) : Option Nat :=
  if variants ≤ 256 then some 1
  else if variants ≤ 256 * 256 then some 2
  else none

/-- The tag width `impl_deserial` chooses from the variant count
(lines 744-753); more than 65536 variants is a generation-time
`syn::Error`. -/
def deserialTagWidth (variants : Nat) : Except String Nat :=
  if variants ≤ 256 then .ok 1
  else if variants ≤ 256 * 256 then .ok 2
  else .error "[derive(Deserial)]: Too many variants. Maximum 65536 are supported."

/-- Modelled from the spec: `BTreeMap` insertion into the sorted entry
list — the key finds its position, an equal key is overwritten (last
write wins). -/
def insertEntry : List (Nat × Val) → Nat → Val → List (Nat × Val)
  | [], k, v => [(k, v)]
  | (k1, v1) :: rest, k, v =>
    if k < k1 then (k, v) :: (k1, v1) :: rest
    else if k = k1 then (k, v) :: rest
    else (k1, v1) :: insertEntry rest k v

/-- The map `deserial_map_no_length_no_order_check` builds from the pairs
it read, in reading order. -/
def mapFromList (ps : List (Nat × Val)) : List (Nat × Val) :=
  ps.foldl (fun m p => insertEntry m p.1 p.2) []

/-- Modelled from the spec: `BTreeSet` insertion into the sorted element
list (duplicates are dropped). -/
def insertKey : List Nat → Nat → List Nat
  | [], k => [k]
  | k1 :: rest, k =>
    if k < k1 then k :: k1 :: rest
    else if k = k1 then k1 :: rest
    else k1 :: insertKey rest k

/-- The set `deserial_set_no_length_no_order_check` builds from the
elements it read, in reading order. -/
def setFromList (ks : List Nat) : List Nat :=
  ks.foldl insertKey []

/-- Modelled from the spec: read `n` set elements of width `w` with no
order check (`deserial_set_no_length_no_order_check`, before the container
is built). -/
def readKeys (w : Nat) : Nat → List Nat → Option (List Nat × List Nat)
  | 0, bs => some ([], bs)
  | n + 1, bs =>
    match readLE w bs with
    | none => none
    | some (k, r) =>
      match readKeys w n r with
      | none => none
      | some (ks, r2) => some (k :: ks, r2)

/-- Modelled from the spec: read `n` set elements of width `w`, each
required to be strictly greater than the previous one
(`deserial_set_no_length`); a violation is a format error. -/
def readKeysOrd (w : Nat) : Option Nat → Nat → List Nat → Option (List Nat × List Nat)
  | _, 0, bs => some ([], bs)
  | prev, n + 1, bs =>
    match readLE w bs with
    | none => none
    | some (k, r) =>
      if (match prev with | none => true | some p => decide (p < k)) then
        match readKeysOrd w (some k) n r with
        | none => none
        | some (ks, r2) => some (k :: ks, r2)
      else none

mutual

/-- The byte encoding produced by the code `impl_serial` generates:
structs write their fields in declaration order with no tag; enums write
the variant's zero-based index on `serialTagWidth` bytes little-endian,
then the variant's fields; a length-prefixed field writes its element
count as a `width`-byte little-endian unsigned integer (`len as uN`
truncates) followed by the elements — map entries and set elements in
ascending key order, the order the sorted representation stores them in.
A value that does not fit the type encodes to `[]`; validity
(`validVal`) rules this out. -/
def encodeVal : Ty → Val → List Nat
  | .scalar s, .num n => leBytes s.width n
  | .vecLen w e, .list xs => leBytes w xs.length ++ encodeElems e xs
  | .strLen w, .str bs => leBytes w bs.length ++ bs
  | .mapLen w _ k v, .map ps => leBytes w ps.length ++ encodeEntries k v ps
  | .setLen w _ k, .set xs => leBytes w xs.length ++ (xs.map (leBytes k.width)).flatten
  | .struct ts, .struct vs => encodeFields ts vs
  | .enum vars, .enum tag vs =>
    match serialTagWidth vars.length with
    | some w =>
      match vars[tag]? with
      | some ts => leBytes w tag ++ encodeFields ts vs
      | none => []
    | none => []
  | _, _ => []

/-- Encodings of a list of elements, concatenated
(`serial_vector_no_length`). -/
def encodeElems : Ty → List Val → List Nat
  | _, [] => []
  | e, x :: xs => encodeVal e x ++ encodeElems e xs

/-- Encodings of map entries, key then value, concatenated
(`serial_map_no_length`). -/
def encodeEntries : ScalarTy → Ty → List (Nat × Val) → List Nat
  | _, _, [] => []
  | k, v, p :: ps => leBytes k.width p.1 ++ encodeVal v p.2 ++ encodeEntries k v ps

/-- Encodings of a struct's or variant's fields, in declaration order. -/
def encodeFields : List Ty → List Val → List Nat
  | t :: ts, v :: vs => encodeVal t v ++ encodeFields ts vs
  | _, _ => []

end

mutual

/-- A value fits a type and every wire-format invariant holds: scalars
are in range, container lengths fit their length-prefix width, map and
set representations are strictly increasing (the `BTreeMap`/`BTreeSet`
invariant), string bytes are bytes, and an enum's tag is the zero-based
index of an actual variant of a supported (at most 65536 variants)
enum. -/
def validVal : Ty → Val → Bool
  | .scalar s, .num n => decide (n < 256 ^ s.width)
  | .vecLen w e, .list xs => decide (xs.length < 256 ^ w) && validElems e xs
  | .strLen w, .str bs =>
    decide (bs.length < 256 ^ w) && bs.all fun b => decide (b < 256)
  | .mapLen w _ k v, .map ps =>
    decide (ps.length < 256 ^ w) && strictIncr (ps.map Prod.fst) &&
      (ps.all fun p => decide (p.1 < 256 ^ k.width)) && validEntries v ps
  | .setLen w _ k, .set xs =>
    decide (xs.length < 256 ^ w) && strictIncr xs &&
      xs.all fun x => decide (x < 256 ^ k.width)
  | .struct ts, .struct vs => validFields ts vs
  | .enum vars, .enum tag vs =>
    decide (vars.length ≤ 256 * 256) &&
      (match vars[tag]? with
       | some ts => validFields ts vs
       | none => false)
  | _, _ => false

/-- Every element of the list fits the element type. -/
def validElems : Ty → List Val → Bool
  | _, [] => true
  | e, x :: xs => validVal e x && validElems e xs

/-- Every entry value fits the map's value type. -/
def validEntries : Ty → List (Nat × Val) → Bool
  | _, [] => true
  | v, p :: ps => validVal v p.2 && validEntries v ps

/-- Fields fit the field types, position by position. -/
def validFields : List Ty → List Val → Bool
  | [], [] => true
  | t :: ts, v :: vs => validVal t v && validFields ts vs
  | _, _ => false

end

mutual

/-- The decoder produced by the code `impl_deserial` generates, mirroring
`encodeVal`: structs read their fields in order; enums read the tag
(sized by `deserialTagWidth`) and dispatch on it, an out-of-range tag
being a format error (the `_ => Err(Default::default())` arm); a
length-prefixed field reads the count as a `width`-byte little-endian
unsigned integer and then that many elements, with an order check on maps
and sets exactly when `ensure_ordered` was given.  `none` is a
(recoverable) format error. -/
def decodeVal : Ty → List Nat → Option (Val × List Nat)
  | .scalar s, bs =>
    match readLE s.width bs with
    | some (n, r) => some (.num n, r)
    | none => none
  | .vecLen w e, bs =>
    match readLE w bs with
    | some (len, r) =>
      match decodeElems e len r with
      | some (xs, r2) => some (.list xs, r2)
      | none => none
    | none => none
  | .strLen w, bs =>
    match readLE w bs with
    | some (len, r) =>
      match readBytes len r with
      | some (s, r2) => some (.str s, r2)
      | none => none
    | none => none
  | .mapLen w ordered k v, bs =>
    match readLE w bs with
    | some (len, r) =>
      if ordered then
        match decodeEntriesOrd k v none len r with
        | some (ps, r2) => some (.map ps, r2)
        | none => none
      else
        match decodeEntries k v len r with
        | some (ps, r2) => some (.map (mapFromList ps), r2)
        | none => none
    | none => none
  | .setLen w ordered k, bs =>
    match readLE w bs with
    | some (len, r) =>
      if ordered then
        match readKeysOrd k.width none len r with
        | some (ks, r2) => some (.set ks, r2)
        | none => none
      else
        match readKeys k.width len r with
        | some (ks, r2) => some (.set (setFromList ks), r2)
        | none => none
    | none => none
  | .struct ts, bs =>
    match decodeFields ts bs with
    | some (vs, r) => some (.struct vs, r)
    | none => none
  | .enum vars, bs =>
    match deserialTagWidth vars.length with
    | .error _ => none
    | .ok w =>
      match readLE w bs with
      | some (tag, r) =>
        match h : vars[tag]? with
        | some ts =>
          match decodeFields ts r with
          | some (vs, r2) => some (.enum tag vs, r2)
          | none => none
        | none => none
      | none => none
termination_by t _ => (sizeOf t, 0)
decreasing_by
  all_goals simp_wf
  all_goals
    first
    | exact Prod.Lex.right _ (by omega)
    | (apply Prod.Lex.left
       first
       | omega
       | (have hmem := List.sizeOf_lt_of_mem (List.getElem?_mem h)
          omega)
       | (simp +arith
          omega))

/-- Read `len` elements (`deserial_vector_no_length`). -/
def decodeElems : Ty → Nat → List Nat → Option (List Val × List Nat)
  | _, 0, bs => some ([], bs)
  | e, n + 1, bs =>
    match decodeVal e bs with
    | some (x, r) =>
      match decodeElems e n r with
      | some (xs, r2) => some (x :: xs, r2)
      | none => none
    | none => none
termination_by e n _ => (sizeOf e, n + 1)
decreasing_by
  all_goals simp_wf
  all_goals
    first
    | exact Prod.Lex.right _ (by omega)
    | (apply Prod.Lex.left
       first
       | omega
       | (simp +arith
          omega))

/-- Modelled from the spec: read `len` map entries with no order check
(`deserial_map_no_length_no_order_check`, before the container is
built). -/
def decodeEntries : ScalarTy → Ty → Nat → List Nat → Option (List (Nat × Val) × List Nat)
  | _, _, 0, bs => some ([], bs)
  | k, v, n + 1, bs =>
    match readLE k.width bs with
    | some (key, r) =>
      match decodeVal v r with
      | some (value, r2) =>
        match decodeEntries k v n r2 with
        | some (ps, r3) => some ((key, value) :: ps, r3)
        | none => none
      | none => none
    | none => none
termination_by k v n _ => (sizeOf v, n + 1)
decreasing_by
  all_goals simp_wf
  all_goals
    first
    | exact Prod.Lex.right _ (by omega)
    | (apply Prod.Lex.left
       first
       | omega
       | (have hmem := List.sizeOf_lt_of_mem (List.getElem?_mem h)
          omega)
       | (simp +arith
          omega))

/-- Modelled from the spec: read `len` map entries, each key required to
be strictly greater than the previous one (`deserial_map_no_length`); a
violation is a format error. -/
def decodeEntriesOrd : ScalarTy → Ty → Option Nat → Nat → List Nat →
    Option (List (Nat × Val) × List Nat)
  | _, _, _, 0, bs => some ([], bs)
  | k, v, prev, n + 1, bs =>
    match readLE k.width bs with
    | some (key, r) =>
      if (match prev with | none => true | some p => decide (p < key)) then
        match decodeVal v r with
        | some (value, r2) =>
          match decodeEntriesOrd k v (some key) n r2 with
          | some (ps, r3) => some ((key, value) :: ps, r3)
          | none => none
        | none => none
      else none
    | none => none
termination_by k v prev n _ => (sizeOf v, n + 1)
decreasing_by
  all_goals simp_wf
  all_goals
    first
    | exact Prod.Lex.right _ (by omega)
    | (apply Prod.Lex.left
       first
       | omega
       | (have hmem := List.sizeOf_lt_of_mem (List.getElem?_mem h)
          omega)
       | (simp +arith
          omega))

/-- Read the fields of a struct or of the dispatched enum variant, in
declaration order; any field failure short-circuits (`?` in the generated
code). -/
def decodeFields : List Ty → List Nat → Option (List Val × List Nat)
  | [], bs => some ([], bs)
  | t :: ts, bs =>
    match decodeVal t bs with
    | some (v, r) =>
      match decodeFields ts r with
      | some (vs, r2) => some (v :: vs, r2)
      | none => none
    | none => none
termination_by ts _ => (sizeOf ts, 0)
decreasing_by
  all_goals simp_wf
  all_goals
    first
    | exact Prod.Lex.right _ (by omega)
    | (apply Prod.Lex.left
       first
       | omega
       | (have hmem := List.sizeOf_lt_of_mem (List.getElem?_mem h)
          omega)
       | (simp +arith
          omega))

end

/-! ### Round-trip lemmas -/

/-- Reading back `w` little-endian bytes of `n` yields `n` reduced modulo
`256 ^ w`. -/
theorem readLE_leBytes (w : Nat) : ∀ (n : Nat) (r : List Nat),
    readLE w (leBytes w n ++ r) = some (n % 256 ^ w, r) := by
  induction w with
  | zero => intro n r; simp [leBytes, readLE, Nat.mod_one]
  | succ w ih =>
    intro n r
    simp only [leBytes, readLE, List.cons_append, List.append_eq, ih]
    have h2 : (256 : Nat) ^ (w + 1) = 256 * 256 ^ w := by
      rw [pow_succ]; ring
    rw [h2, Nat.mod_mul]

/-- In-range values survive the little-endian round trip unchanged. -/
theorem readLE_leBytes_lt (w n : Nat) (r : List Nat) (h : n < 256 ^ w) :
    readLE w (leBytes w n ++ r) = some (n, r) := by
  rw [readLE_leBytes, Nat.mod_eq_of_lt h]

/-- A chain above `p` bounds every member and is itself strictly
increasing. -/
theorem chainLt_some (ks : List Nat) : ∀ p, chainLt (some p) ks = true →
    (∀ b ∈ ks, p < b) ∧ chainLt none ks = true := by
  induction ks with
  | nil => intro p _; exact ⟨by simp, rfl⟩
  | cons k ks ih =>
    intro p h
    simp only [chainLt, Bool.and_eq_true, decide_eq_true_eq] at h
    obtain ⟨hpk, hrest⟩ := h
    obtain ⟨hall, _⟩ := ih k hrest
    refine ⟨?_, ?_⟩
    · intro b hb
      rcases List.mem_cons.mp hb with rfl | hb
      · exact hpk
      · exact lt_trans hpk (hall b hb)
    · simpa [chainLt] using hrest

/-- Inserting a key above everything in a sorted list appends it. -/
theorem insertKey_append (k : Nat) : ∀ (acc : List Nat), (∀ a ∈ acc, a < k) →
    insertKey acc k = acc ++ [k] := by
  intro acc
  induction acc with
  | nil => intro _; simp [insertKey]
  | cons a rest ih =>
    intro h
    have hak : a < k := h a (by simp)
    simp only [insertKey, if_neg (by omega : ¬ k < a), if_neg (by omega : ¬ k = a),
      List.cons_append, List.cons.injEq, true_and]
    exact ih fun b hb => h b (by simp [hb])

/-- Folding `insertKey` over keys that are strictly increasing and above
the accumulator just appends them. -/
theorem foldl_insertKey (ks : List Nat) : ∀ (acc : List Nat),
    (∀ a ∈ acc, ∀ b ∈ ks, a < b) → chainLt none ks = true →
    ks.foldl insertKey acc = acc ++ ks := by
  induction ks with
  | nil => intro acc _ _; simp
  | cons k ks ih =>
    intro acc hcross hchain
    have hchain2 : chainLt (some k) ks = true := by simpa [chainLt] using hchain
    obtain ⟨hk, hks⟩ := chainLt_some ks k hchain2
    have hins : insertKey acc k = acc ++ [k] :=
      insertKey_append k acc fun a ha => hcross a ha k (by simp)
    simp only [List.foldl_cons, hins]
    rw [ih (acc ++ [k]) ?_ hks]
    · simp
    · intro a ha b hb
      rcases List.mem_append.mp ha with ha | ha
      · exact hcross a ha b (by simp [hb])
      · simp only [List.mem_singleton] at ha
        subst ha
        exact hk b hb

/-- A strictly increasing element list is a fixed point of the
`BTreeSet` construction. -/
theorem setFromList_sorted (ks : List Nat) (h : strictIncr ks = true) :
    setFromList ks = ks := by
  simpa [setFromList] using foldl_insertKey ks [] (by simp) h

/-- Inserting an entry whose key is above everything in a sorted entry
list appends it. -/
theorem insertEntry_append (k : Nat) (v : Val) : ∀ (acc : List (Nat × Val)),
    (∀ p ∈ acc, p.1 < k) → insertEntry acc k v = acc ++ [(k, v)] := by
  intro acc
  induction acc with
  | nil => intro _; simp [insertEntry]
  | cons q rest ih =>
    intro h
    have hqk : q.1 < k := h q (by simp)
    obtain ⟨q1, q2⟩ := q
    simp only at hqk
    simp only [insertEntry, if_neg (by omega : ¬ k < q1), if_neg (by omega : ¬ k = q1),
      List.cons_append, List.cons.injEq, true_and]
    exact ih fun p hp => h p (by simp [hp])

/-- Folding `insertEntry` over entries whose keys are strictly increasing
and above the accumulator just appends them. -/
theorem foldl_insertEntry (ps : List (Nat × Val)) : ∀ (acc : List (Nat × Val)),
    (∀ p ∈ acc, ∀ q ∈ ps, p.1 < q.1) → chainLt none (ps.map Prod.fst) = true →
    ps.foldl (fun m p => insertEntry m p.1 p.2) acc = acc ++ ps := by
  induction ps with
  | nil => intro acc _ _; simp
  | cons q ps ih =>
    intro acc hcross hchain
    have hchain2 : chainLt (some q.1) (ps.map Prod.fst) = true := by
      simpa [chainLt] using hchain
    obtain ⟨hk, hks⟩ := chainLt_some (ps.map Prod.fst) q.1 hchain2
    have hins : insertEntry acc q.1 q.2 = acc ++ [(q.1, q.2)] :=
      insertEntry_append q.1 q.2 acc fun p hp => hcross p hp q (by simp)
    simp only [List.foldl_cons, hins]
    rw [ih (acc ++ [(q.1, q.2)]) ?_ hks]
    · simp
    · intro p hp b hb
      rcases List.mem_append.mp hp with hp | hp
      · exact hcross p hp b (by simp [hb])
      · simp only [List.mem_singleton] at hp
        subst hp
        exact hk b.1 (List.mem_map_of_mem Prod.fst hb)

/-- An entry list with strictly increasing keys is a fixed point of the
`BTreeMap` construction. -/
theorem mapFromList_sorted (ps : List (Nat × Val)) (h : strictIncr (ps.map Prod.fst) = true) :
    mapFromList ps = ps := by
  simpa [mapFromList] using foldl_insertEntry ps [] (by simp) h

/-- Reading back the unordered set encoding recovers the element list. -/
theorem readKeys_encode (w : Nat) (ks : List Nat) : ∀ (r : List Nat),
    (∀ x ∈ ks, x < 256 ^ w) →
    readKeys w ks.length ((ks.map (leBytes w)).flatten ++ r) = some (ks, r) := by
  induction ks with
  | nil => intro r _; simp [readKeys]
  | cons k ks ih =>
    intro r h
    simp only [List.map_cons, List.flatten_cons, List.length_cons, List.append_assoc]
    simp [readKeys, readLE_leBytes_lt w k _ (h k (by simp)),
      ih r fun x hx => h x (by simp [hx])]

/-- Reading back the ordered set encoding succeeds exactly when the
elements are strictly increasing (above `prev`), recovering the list;
otherwise it is a format error. -/
theorem readKeysOrd_encode (w : Nat) (ks : List Nat) : ∀ (prev : Option Nat) (r : List Nat),
    (∀ x ∈ ks, x < 256 ^ w) →
    readKeysOrd w prev ks.length ((ks.map (leBytes w)).flatten ++ r) =
      (if chainLt prev ks then some (ks, r) else none) := by
  induction ks with
  | nil => intro prev r _; simp [readKeysOrd, chainLt]
  | cons k ks ih =>
    intro prev r h
    simp only [List.map_cons, List.flatten_cons, List.length_cons, List.append_assoc]
    have hrec := ih (some k) r fun x hx => h x (by simp [hx])
    cases prev with
    | none =>
      by_cases hc : chainLt (some k) ks = true
      · simp [readKeysOrd, readLE_leBytes_lt w k _ (h k (by simp)), hrec, chainLt, hc]
      · simp [readKeysOrd, readLE_leBytes_lt w k _ (h k (by simp)), hrec, chainLt, hc]
    | some p =>
      by_cases hpk : p < k
      · by_cases hc : chainLt (some k) ks = true
        · simp [readKeysOrd, readLE_leBytes_lt w k _ (h k (by simp)), hrec, chainLt, hpk, hc]
        · simp [readKeysOrd, readLE_leBytes_lt w k _ (h k (by simp)), hrec, chainLt, hpk, hc]
      · simp [readKeysOrd, readLE_leBytes_lt w k _ (h k (by simp)), chainLt, hpk]

/-- Decoding the concatenated element encodings recovers the list,
given the element round trips. -/
theorem decodeElems_encodeElems (e : Ty) (xs : List Val) : ∀ (r : List Nat),
    (∀ x ∈ xs, ∀ r2, decodeVal e (encodeVal e x ++ r2) = some (x, r2)) →
    decodeElems e xs.length (encodeElems e xs ++ r) = some (xs, r) := by
  induction xs with
  | nil => intro r _; simp [encodeElems, decodeElems]
  | cons x xs ih =>
    intro r h
    simp only [encodeElems, List.length_cons, List.append_assoc]
    simp [decodeElems, h x (by simp), ih r fun y hy => h y (by simp [hy])]

/-- Decoding `n ≤ length` elements from the concatenated encodings
returns the first `n` elements and leaves the rest of the bytes over.
This is the decoder's view of a truncated count prefix. -/
theorem decodeElems_encodeElems_take (e : Ty) : ∀ (n : Nat) (xs : List Val) (r : List Nat),
    n ≤ xs.length →
    (∀ x ∈ xs, ∀ r2, decodeVal e (encodeVal e x ++ r2) = some (x, r2)) →
    decodeElems e n (encodeElems e xs ++ r) =
      some (xs.take n, encodeElems e (xs.drop n) ++ r) := by
  intro n
  induction n with
  | zero => intro xs r _ _; simp [decodeElems]
  | succ n ih =>
    intro xs r hn h
    cases xs with
    | nil => simp at hn
    | cons x xs =>
      simp only [encodeElems, List.append_assoc, List.take_succ_cons, List.drop_succ_cons]
      simp [decodeElems, h x (by simp),
        ih xs r (by simpa using hn) fun y hy => h y (by simp [hy])]

/-- Decoding the concatenated entry encodings with no order check
recovers the entry list, given key bounds and value round trips. -/
theorem decodeEntries_encodeEntries (k : ScalarTy) (vt : Ty) (ps : List (Nat × Val)) :
    ∀ (r : List Nat),
    (∀ p ∈ ps, p.1 < 256 ^ k.width) →
    (∀ p ∈ ps, ∀ r2, decodeVal vt (encodeVal vt p.2 ++ r2) = some (p.2, r2)) →
    decodeEntries k vt ps.length (encodeEntries k vt ps ++ r) = some (ps, r) := by
  induction ps with
  | nil => intro r _ _; simp [encodeEntries, decodeEntries]
  | cons p ps ih =>
    intro r hkey hval
    simp only [encodeEntries, List.length_cons, List.append_assoc]
    simp [decodeEntries, readLE_leBytes_lt k.width p.1 _ (hkey p (by simp)),
      hval p (by simp), ih r (fun q hq => hkey q (by simp [hq]))
        (fun q hq r2 => hval q (by simp [hq]) r2)]

/-- Decoding the concatenated entry encodings with the order check
succeeds exactly when the keys are strictly increasing (above `prev`),
recovering the entry list; otherwise it is a format error. -/
theorem decodeEntriesOrd_encodeEntries (k : ScalarTy) (vt : Ty) (ps : List (Nat × Val)) :
    ∀ (prev : Option Nat) (r : List Nat),
    (∀ p ∈ ps, p.1 < 256 ^ k.width) →
    (∀ p ∈ ps, ∀ r2, decodeVal vt (encodeVal vt p.2 ++ r2) = some (p.2, r2)) →
    decodeEntriesOrd k vt prev ps.length (encodeEntries k vt ps ++ r) =
      (if chainLt prev (ps.map Prod.fst) then some (ps, r) else none) := by
  induction ps with
  | nil => intro prev r _ _; simp [encodeEntries, decodeEntriesOrd, chainLt]
  | cons p ps ih =>
    intro prev r hkey hval
    simp only [encodeEntries, List.length_cons, List.append_assoc, List.map_cons]
    have hrec := ih (some p.1) r (fun q hq => hkey q (by simp [hq]))
      (fun q hq r2 => hval q (by simp [hq]) r2)
    cases prev with
    | none =>
      by_cases hc : chainLt (some p.1) (ps.map Prod.fst) = true
      · simp [decodeEntriesOrd, readLE_leBytes_lt k.width p.1 _ (hkey p (by simp)),
          hval p (by simp), hrec, chainLt, hc]
      · simp [decodeEntriesOrd, readLE_leBytes_lt k.width p.1 _ (hkey p (by simp)),
          hval p (by simp), hrec, chainLt, hc]
    | some q =>
      by_cases hqp : q < p.1
      · by_cases hc : chainLt (some p.1) (ps.map Prod.fst) = true
        · simp [decodeEntriesOrd, readLE_leBytes_lt k.width p.1 _ (hkey p (by simp)),
            hval p (by simp), hrec, chainLt, hqp, hc]
        · simp [decodeEntriesOrd, readLE_leBytes_lt k.width p.1 _ (hkey p (by simp)),
            hval p (by simp), hrec, chainLt, hqp, hc]
      · simp [decodeEntriesOrd, readLE_leBytes_lt k.width p.1 _ (hkey p (by simp)),
          chainLt, hqp]

/-- Decoding the concatenated field encodings recovers the fields, given
the field round trips. -/
theorem decodeFields_encodeFields (ts : List Ty) : ∀ (vs : List Val) (r : List Nat),
    validFields ts vs = true →
    (∀ v ∈ vs, ∀ (t : Ty) (r2 : List Nat), validVal t v = true →
      decodeVal t (encodeVal t v ++ r2) = some (v, r2)) →
    decodeFields ts (encodeFields ts vs ++ r) = some (vs, r) := by
  induction ts with
  | nil =>
    intro vs r h _
    cases vs with
    | nil => simp [encodeFields, decodeFields]
    | cons v vs => simp [validFields] at h
  | cons t ts ih =>
    intro vs r h hrt
    cases vs with
    | nil => simp [validFields] at h
    | cons v vs =>
      simp only [validFields, Bool.and_eq_true] at h
      simp only [encodeFields, List.append_assoc]
      simp [decodeFields, hrt v (by simp) t _ h.1,
        ih vs r h.2 fun y hy t2 r2 hv2 => hrt y (by simp [hy]) t2 r2 hv2]

/-- Validity of an element list gives validity of each element. -/
theorem validElems_mem (e : Ty) (xs : List Val) (h : validElems e xs = true) :
    ∀ x ∈ xs, validVal e x = true := by
  induction xs with
  | nil => simp
  | cons x xs ih =>
    simp only [validElems, Bool.and_eq_true] at h
    intro y hy
    rcases List.mem_cons.mp hy with rfl | hy
    · exact h.1
    · exact ih h.2 y hy

/-- Validity of an entry list gives validity of each entry value. -/
theorem validEntries_mem (vt : Ty) (ps : List (Nat × Val)) (h : validEntries vt ps = true) :
    ∀ p ∈ ps, validVal vt p.2 = true := by
  induction ps with
  | nil => simp
  | cons p ps ih =>
    simp only [validEntries, Bool.and_eq_true] at h
    intro q hq
    rcases List.mem_cons.mp hq with rfl | hq
    · exact h.1
    · exact ih h.2 q hq

/-- Decoding an encoding recovers the value with any trailing bytes left
over: the generated `Deserial` implementation is a left inverse of the
generated `Serial` implementation on every valid value of every type of
the supported grammar. -/
theorem decode_encode (v : Val) (t : Ty) (r : List Nat) (hv : validVal t v = true) :
    decodeVal t (encodeVal t v ++ r) = some (v, r) := by
  cases v with
  | num n =>
    cases t
    case scalar s =>
      simp only [validVal, decide_eq_true_eq] at hv
      simp [encodeVal, decodeVal, readLE_leBytes_lt s.width n r hv]
    all_goals simp [validVal] at hv
  | str bs =>
    cases t
    case strLen w =>
      simp only [validVal, Bool.and_eq_true, decide_eq_true_eq] at hv
      simp only [encodeVal, List.append_assoc]
      simp [decodeVal, readLE_leBytes_lt w bs.length _ hv.1, readBytes,
        List.take_left, List.drop_left]
    all_goals simp [validVal] at hv
  | list xs =>
    cases t
    case vecLen w e =>
      simp only [validVal, Bool.and_eq_true, decide_eq_true_eq] at hv
      have hmem := validElems_mem e xs hv.2
      simp only [encodeVal, List.append_assoc]
      simp [decodeVal, readLE_leBytes_lt w xs.length _ hv.1,
        decodeElems_encodeElems e xs r fun x hx r2 => decode_encode x e r2 (hmem x hx)]
    all_goals simp [validVal] at hv
  | map ps =>
    cases t
    case mapLen w o k vt =>
      simp only [validVal, Bool.and_eq_true, decide_eq_true_eq] at hv
      obtain ⟨⟨⟨hlen, hchain⟩, hkeys⟩, hentries⟩ := hv
      have hkeys2 : ∀ p ∈ ps, p.1 < 256 ^ k.width := by
        intro p hp
        simpa using List.all_eq_true.mp hkeys p hp
      have hvals := validEntries_mem vt ps hentries
      have hrt : ∀ p ∈ ps, ∀ r2, decodeVal vt (encodeVal vt p.2 ++ r2) = some (p.2, r2) :=
        fun p hp r2 => decode_encode p.2 vt r2 (hvals p hp)
      have hchain2 : chainLt none (ps.map Prod.fst) = true := hchain
      cases o with
      | true =>
        simp only [encodeVal, List.append_assoc]
        simp [decodeVal, readLE_leBytes_lt w ps.length _ hlen,
          decodeEntriesOrd_encodeEntries k vt ps none r hkeys2 hrt, hchain2]
      | false =>
        simp only [encodeVal, List.append_assoc]
        simp [decodeVal, readLE_leBytes_lt w ps.length _ hlen,
          decodeEntries_encodeEntries k vt ps r hkeys2 hrt, mapFromList_sorted ps hchain]
    all_goals simp [validVal] at hv
  | set ks =>
    cases t
    case setLen w o k =>
      simp only [validVal, Bool.and_eq_true, decide_eq_true_eq] at hv
      obtain ⟨⟨hlen, hchain⟩, hkeys⟩ := hv
      have hkeys2 : ∀ x ∈ ks, x < 256 ^ k.width := by
        intro x hx
        simpa using List.all_eq_true.mp hkeys x hx
      have hchain2 : chainLt none ks = true := hchain
      cases o with
      | true =>
        simp only [encodeVal, List.append_assoc]
        simp [decodeVal, readLE_leBytes_lt w ks.length _ hlen,
          readKeysOrd_encode k.width ks none r hkeys2, hchain2]
      | false =>
        simp only [encodeVal, List.append_assoc]
        simp [decodeVal, readLE_leBytes_lt w ks.length _ hlen,
          readKeys_encode k.width ks r hkeys2, setFromList_sorted ks hchain]
    all_goals simp [validVal] at hv
  | struct vs =>
    cases t
    case struct ts =>
      simp only [validVal] at hv
      simp only [encodeVal]
      simp [decodeVal, decodeFields_encodeFields ts vs r hv
        fun y hy t2 r2 hv2 => decode_encode y t2 r2 hv2]
    all_goals simp [validVal] at hv
  | enum tag vs =>
    cases t
    case enum vars =>
      simp only [validVal, Bool.and_eq_true, decide_eq_true_eq] at hv
      obtain ⟨hle, hrest⟩ := hv
      cases heq : vars[tag]? with
      | none => simp [heq] at hrest
      | some ts =>
        rw [heq] at hrest
        have hrest2 : validFields ts vs = true := hrest
        have htag : tag < vars.length := by
          by_contra hc
          rw [List.getElem?_eq_none (by omega)] at heq
          exact Option.noConfusion heq
        have hflds : decodeFields ts (encodeFields ts vs ++ r) = some (vs, r) :=
          decodeFields_encodeFields ts vs r hrest2
            fun y hy t2 r2 hv2 => decode_encode y t2 r2 hv2
        by_cases h256 : vars.length ≤ 256
        · have htag2 : tag < 256 ^ 1 := by simpa using lt_of_lt_of_le htag h256
          simp only [encodeVal, decodeVal, serialTagWidth, deserialTagWidth, if_pos h256, heq,
            List.append_assoc, readLE_leBytes_lt 1 tag _ htag2]
          split
          · rename_i ts2 heq2
            rw [heq] at heq2
            obtain rfl := Option.some.inj heq2
            simp [hflds]
          · rename_i heq2
            rw [heq] at heq2
            exact Option.noConfusion heq2
        · have htag2 : tag < 256 ^ 2 := by
            have h1 := lt_of_lt_of_le htag hle
            norm_num
            omega
          simp only [encodeVal, decodeVal, serialTagWidth, deserialTagWidth, if_neg h256,
            if_pos hle, heq, List.append_assoc, readLE_leBytes_lt 2 tag _ htag2]
          split
          · rename_i ts2 heq2
            rw [heq] at heq2
            obtain rfl := Option.some.inj heq2
            simp [hflds]
          · rename_i heq2
            rw [heq] at heq2
            exact Option.noConfusion heq2
    all_goals simp [validVal] at hv
termination_by sizeOf v
decreasing_by
  all_goals simp_wf
  all_goals subst_vars
  all_goals
    first
    | (have hs := List.sizeOf_lt_of_mem hx
       simp +arith at hs ⊢
       omega)
    | (obtain ⟨p1, p2⟩ := p
       have hs := List.sizeOf_lt_of_mem hp
       simp +arith at hs ⊢
       omega)
    | (have hs := List.sizeOf_lt_of_mem hy
       simp +arith at hs ⊢
       omega)

/-! ### Properties of the specification claims -/

/-- C1: for every type in the supported grammar (structs with named,
unnamed or unit fields, enums with 1..256 or 257..65536 variants,
length-prefixed container fields) and every valid value `x` of that type,
decoding the bytes produced by the generated encoder yields `x` again:
`decode (encode x) = x`, with any trailing input preserved. -/
theorem roundtrip_serial_deserial (t : Ty) (v : Val) (r : List Nat)
    (h : validVal t v = true) :
    decodeVal t (encodeVal t v ++ r) = some (v, r) :=
  decode_encode v t r h

/-- Witness for `roundtrip_serial_deserial` at a concrete struct value. -/
theorem roundtrip_serial_deserial_witness :
    validVal (Ty.struct [Ty.scalar ScalarTy.u8]) (Val.struct [Val.num 7]) = true ∧
    decodeVal (Ty.struct [Ty.scalar ScalarTy.u8])
      (encodeVal (Ty.struct [Ty.scalar ScalarTy.u8]) (Val.struct [Val.num 7]) ++ []) =
      some (Val.struct [Val.num 7], []) :=
  ⟨by simp [validVal, validFields, ScalarTy.width],
   roundtrip_serial_deserial _ _ _ (by simp [validVal, validFields, ScalarTy.width])⟩

/-- C2: under a length attribute of width `w` the written count prefix is
the container length reduced to the `w`-byte unsigned integer (the
`len as uN` cast), so a width of 1 limits the encodable container size to
255 elements; decoding the encoding returns exactly the first
`length % 256 ^ w` elements, so the count prefix and the decode-back
result agree with the declared width semantics for every width, and
whenever the length fits the width the round trip is exact. -/
theorem size_length_width_boundary (w : Nat) (e : Ty) (xs : List Val) (r : List Nat)
    (hvalid : validElems e xs = true) :
    readLE w (encodeVal (Ty.vecLen w e) (Val.list xs) ++ r) =
      some (xs.length % 256 ^ w, encodeElems e xs ++ r) ∧
    decodeVal (Ty.vecLen w e) (encodeVal (Ty.vecLen w e) (Val.list xs) ++ r) =
      some (Val.list (xs.take (xs.length % 256 ^ w)),
        encodeElems e (xs.drop (xs.length % 256 ^ w)) ++ r) ∧
    (xs.length < 256 ^ w →
      decodeVal (Ty.vecLen w e) (encodeVal (Ty.vecLen w e) (Val.list xs) ++ r) =
        some (Val.list xs, r)) := by
  have hmem := validElems_mem e xs hvalid
  have hrt : ∀ x ∈ xs, ∀ r2, decodeVal e (encodeVal e x ++ r2) = some (x, r2) :=
    fun x hx r2 => decode_encode x e r2 (hmem x hx)
  refine ⟨?_, ?_, ?_⟩
  · simp [encodeVal, List.append_assoc, readLE_leBytes]
  · simp only [encodeVal, List.append_assoc]
    simp [decodeVal, readLE_leBytes,
      decodeElems_encodeElems_take e (xs.length % 256 ^ w) xs r (Nat.mod_le _ _) hrt]
  · intro hlt
    simp only [encodeVal, List.append_assoc]
    simp [decodeVal, readLE_leBytes_lt w xs.length _ hlt,
      decodeElems_encodeElems e xs r hrt]

/-- Witness for `size_length_width_boundary` at a one-element vector. -/
theorem size_length_width_boundary_witness :
    validElems (Ty.scalar ScalarTy.u8) [Val.num 3] = true ∧
    decodeVal (Ty.vecLen 1 (Ty.scalar ScalarTy.u8))
      (encodeVal (Ty.vecLen 1 (Ty.scalar ScalarTy.u8)) (Val.list [Val.num 3]) ++ []) =
      some (Val.list [Val.num 3], []) :=
  ⟨by simp [validElems, validVal, ScalarTy.width],
   (size_length_width_boundary 1 (Ty.scalar ScalarTy.u8) [Val.num 3] []
     (by simp [validElems, validVal, ScalarTy.width])).2.2 (by simp)⟩

/-- C3: the generated codec derives the enum tag width solely from the
variant count: at most 256 variants (256 included) use a 1-byte tag,
257 to 65536 variants a 2-byte little-endian tag, and more than 65536
variants make both derive macros fail at generation time
(`impl_deserial` with a `syn::Error`, `impl_serial` with
`unimplemented!`), never at runtime; the emitted tag is the variant's
zero-based declaration index. -/
theorem enum_tag_width_selection (vars : List (List Ty)) (tag : Nat) (fs : List Val)
    (h : validVal (Ty.enum vars) (Val.enum tag fs) = true) :
    (∃ w, serialTagWidth vars.length = some w ∧ deserialTagWidth vars.length = .ok w ∧
      (vars.length ≤ 256 → w = 1) ∧ (256 < vars.length → w = 2) ∧
      ∃ ts, vars[tag]? = some ts ∧
        encodeVal (Ty.enum vars) (Val.enum tag fs) = leBytes w tag ++ encodeFields ts fs) ∧
    (∀ n, 256 * 256 < n →
      serialTagWidth n = none ∧
      deserialTagWidth n =
        .error "[derive(Deserial)]: Too many variants. Maximum 65536 are supported.") := by
  constructor
  · simp only [validVal, Bool.and_eq_true, decide_eq_true_eq] at h
    obtain ⟨hle, hrest⟩ := h
    cases heq : vars[tag]? with
    | none => simp [heq] at hrest
    | some ts =>
      by_cases h256 : vars.length ≤ 256
      · refine ⟨1, by simp [serialTagWidth, h256], by simp [deserialTagWidth, h256],
          fun _ => rfl, fun hgt => by omega, ts, rfl, ?_⟩
        simp [encodeVal, serialTagWidth, h256, heq]
      · refine ⟨2, by simp [serialTagWidth, h256, hle], by simp [deserialTagWidth, h256, hle],
          fun hle2 => by omega, fun _ => rfl, ts, rfl, ?_⟩
        simp [encodeVal, serialTagWidth, h256, hle, heq]
  · intro n hn
    constructor
    · simp only [serialTagWidth, if_neg (by omega : ¬ n ≤ 256),
        if_neg (by omega : ¬ n ≤ 256 * 256)]
    · simp only [deserialTagWidth, if_neg (by omega : ¬ n ≤ 256),
        if_neg (by omega : ¬ n ≤ 256 * 256)]

/-- Witness for `enum_tag_width_selection` at a two-variant enum. -/
theorem enum_tag_width_selection_witness :
    validVal (Ty.enum [[], []]) (Val.enum 1 []) = true ∧
    serialTagWidth 2 = some 1 ∧ deserialTagWidth 2 = .ok 1 :=
  ⟨by simp [validVal, validFields],
   by
    obtain ⟨⟨w, hw1, hw2, hw3, _, _⟩, _⟩ :=
      enum_tag_width_selection [[], []] 1 [] (by simp [validVal, validFields])
    have hw : w = 1 := hw3 (by simp)
    subst hw
    exact ⟨by simpa using hw1, by simpa using hw2⟩⟩

/-- C4 fails as stated: at the entry-point site a duplicated option is
not a validation error at all — `get_attribute_value` silently uses the
first occurrence (the source marks this with a FIXME) — and at the field
site the combined error for two occurrences of `size_length` names only
the second occurrence (span 20 here), not both. -/
theorem duplicate_attribute_counterexample :
    get_attribute_value
      [Meta.nameValue "contract" (Lit.str "a" 1) 1,
       Meta.nameValue "contract" (Lit.str "b" 2) 2] "contract" = .ok (some "a") ∧
    find_field_attribute_value
      [Attr.concordium [NestedMeta.meta (Meta.nameValue "size_length" (Lit.int 1 10) 10)],
       Attr.concordium [NestedMeta.meta (Meta.nameValue "size_length" (Lit.int 2 20) 20)]]
      "size_length" =
      .error [(20, "Attribute 'size_length' should only be specified once.")] :=
  ⟨rfl, rfl⟩

/-- C4 (amended): at the data-type field site a named option may occur at
most once — more occurrences fail with one combined error carrying one
entry per occurrence after the first (so two occurrences produce a single
error naming the second); at the entry-point site duplicates are not
detected and the first occurrence is used. -/
theorem duplicate_attribute_behavior :
    (∀ (attrs : List Attr) (target : String) (metas : List Meta) (l0 l1 : Lit)
      (rest : List Lit),
      get_concordium_field_attributes attrs = .ok metas →
      fieldAttrOccurrences metas target = l0 :: l1 :: rest →
      find_field_attribute_value attrs target =
        .error ((l1.span, "Attribute '" ++ target ++ "' should only be specified once.") ::
          rest.map fun o =>
            (o.span, "Attribute '" ++ target ++ "' should only be specified once."))) ∧
    (∀ (name v : String) (sp sp2 : Nat) (rest : List Meta),
      get_attribute_value (Meta.nameValue name (Lit.str v sp2) sp :: rest) name =
        .ok (some v)) := by
  constructor
  · intro attrs target metas l0 l1 rest h1 h2
    simp [find_field_attribute_value, h1, h2]
  · intro name v sp sp2 rest
    simp [get_attribute_value]

/-- Witness for `duplicate_attribute_behavior` at two occurrences of
`map_size_length` on one field. -/
theorem duplicate_attribute_behavior_witness :
    find_field_attribute_value
      [Attr.concordium [NestedMeta.meta (Meta.nameValue "map_size_length" (Lit.int 1 3) 3),
        NestedMeta.meta (Meta.nameValue "map_size_length" (Lit.int 2 4) 4)]]
      "map_size_length" =
      .error [(4, "Attribute 'map_size_length' should only be specified once.")] :=
  duplicate_attribute_behavior.1
    [Attr.concordium [NestedMeta.meta (Meta.nameValue "map_size_length" (Lit.int 1 3) 3),
      NestedMeta.meta (Meta.nameValue "map_size_length" (Lit.int 2 4) 4)]]
    "map_size_length"
    [Meta.nameValue "map_size_length" (Lit.int 1 3) 3,
     Meta.nameValue "map_size_length" (Lit.int 2 4) 4]
    (Lit.int 1 3) (Lit.int 2 4) [] rfl rfl

/-- C5 fails as stated: a default (neither payable nor logging nor
low_level) init entry point requires only the context argument — the
required list has no state argument and its last element is the context,
because a default init function returns the new state instead of
receiving it. -/
theorem init_state_arg_counterexample :
    init_required_args false false false = ["ctx: &impl HasInitContext"] ∧
    (init_required_args false false false).getLast? = some "ctx: &impl HasInitContext" :=
  ⟨rfl, rfl⟩

/-- C5 (amended): the required user-function signature is, in order:
context first, an amount argument exactly when `payable`, a logger
argument exactly when `enable_logger`; a receive entry point always takes
the state last (the raw handle when `low_level`, the user state type
otherwise), while an init entry point takes a state argument (the raw
handle, last) exactly when `low_level`. -/
theorem required_signature_shape (payable enable_logger low_level : Bool) :
    (init_required_args payable enable_logger low_level).head? =
      some "ctx: &impl HasInitContext" ∧
    (receive_required_args payable enable_logger low_level).head? =
      some "ctx: &impl HasReceiveContext" ∧
    ("amount: Amount" ∈ init_required_args payable enable_logger low_level ↔
      payable = true) ∧
    ("amount: Amount" ∈ receive_required_args payable enable_logger low_level ↔
      payable = true) ∧
    ("logger: &mut impl HasLogger" ∈ init_required_args payable enable_logger low_level ↔
      enable_logger = true) ∧
    ("logger: &mut impl HasLogger" ∈ receive_required_args payable enable_logger low_level ↔
      enable_logger = true) ∧
    (receive_required_args payable enable_logger low_level).getLast? =
      some (if low_level then "state: &mut ContractState" else "state: &mut MyState") ∧
    ("state: &mut ContractState" ∈ init_required_args payable enable_logger low_level ↔
      low_level = true) ∧
    (low_level = true →
      (init_required_args payable enable_logger low_level).getLast? =
        some "state: &mut ContractState") := by
  cases payable <;> cases enable_logger <;> cases low_level <;> decide

/-- Witness for `required_signature_shape` with every flag set. -/
theorem required_signature_shape_witness :
    (init_required_args true true true).getLast? = some "state: &mut ContractState" :=
  (required_signature_shape true true true).2.2.2.2.2.2.2.2 rfl

/-- C6: every generated entry point without `payable` that is invoked
with a non-zero amount returns status -1 before doing anything else: no
store operation has been performed and the user function has not been
invoked. -/
theorem amount_gate_rejects {σ : Type} (amount : Nat) (h : amount ≠ 0)
    (get_state : List Nat → Option σ) (serial_state : σ → Option (List Nat))
    (user_recv : σ → Except Unit (Int × σ)) (user_init : Unit → Except Unit σ)
    (user_recv_ll : List Nat → Except Unit Int × List Nat)
    (user_init_ll : List Nat → Except Unit Unit × List Nat) (store : List Nat) :
    receiveWrapper false amount get_state serial_state user_recv store =
      ⟨some (-1), store, [], 0⟩ ∧
    initWrapper false amount serial_state user_init store = ⟨some (-1), store, [], 0⟩ ∧
    receiveWrapperLowLevel false amount user_recv_ll store = ⟨some (-1), store, [], 0⟩ ∧
    initWrapperLowLevel false amount user_init_ll store = ⟨some (-1), store, [], 0⟩ := by
  refine ⟨?_, ?_, ?_, ?_⟩ <;>
    simp [receiveWrapper, initWrapper, receiveWrapperLowLevel, initWrapperLowLevel, h]

/-- Witness for `amount_gate_rejects` at amount 1. -/
theorem amount_gate_rejects_witness :
    (1 : Nat) ≠ 0 ∧
    receiveWrapper false 1 (fun _ => some (0 : Nat)) (fun _ => some [])
      (fun s => .ok (0, s)) [9] = ⟨some (-1), [9], [], 0⟩ :=
  ⟨by decide,
   (amount_gate_rejects 1 (by decide) (fun _ => some (0 : Nat)) (fun _ => some [])
     (fun s => .ok (0, s)) (fun _ => .ok 0) (fun s => (.ok 0, s)) (fun s => (.ok (), s))
     [9]).1⟩

/-- C7 fails as stated for a default init entry point: with no attribute
flags the claim's formula (context + state) implies two required
arguments, but the generated check accepts exactly one declared argument
— a plain init function takes only the context and returns the state. -/
theorem init_arg_count_counterexample :
    init_worker_arg_check false false false 1 = .ok () ∧
    (init_required_args false false false).length = 1 :=
  ⟨rfl, rfl⟩

/-- C7 (amended): whenever the declared argument count differs from the
length of the required argument list (context + amount iff payable +
logger iff enable_logger + state for receive always and for init only
when low_level), generation fails — never at runtime — with a message
enumerating the expected arguments; in particular a payable init declared
with only a context argument fails listing `ctx` and `amount`. -/
theorem arg_count_mismatch_error (payable enable_logger low_level : Bool) (arg_count : Nat) :
    (arg_count ≠ (init_required_args payable enable_logger low_level).length →
      init_worker_arg_check payable enable_logger low_level arg_count =
        .error ("Incorrect number of function arguments, the expected arguments are (" ++
          String.intercalate ", " (init_required_args payable enable_logger low_level) ++
          ") ")) ∧
    (arg_count ≠ (receive_required_args payable enable_logger low_level).length →
      receive_worker_arg_check payable enable_logger low_level arg_count =
        .error ("Incorrect number of function arguments, the expected arguments are (" ++
          String.intercalate ", " (receive_required_args payable enable_logger low_level) ++
          ") ")) ∧
    init_worker_arg_check true false false 1 =
      .error "Incorrect number of function arguments, the expected arguments are (ctx: &impl HasInitContext, amount: Amount) " := by
  refine ⟨?_, ?_, rfl⟩
  · intro hinit
    simp [init_worker_arg_check, arg_count_check, hinit]
  · intro hrecv
    simp [receive_worker_arg_check, arg_count_check, hrecv]

/-- Witness for `arg_count_mismatch_error`: a payable init declared with
one argument. -/
theorem arg_count_mismatch_error_witness :
    init_worker_arg_check true false false 1 =
      .error "Incorrect number of function arguments, the expected arguments are (ctx: &impl HasInitContext, amount: Amount) " :=
  (arg_count_mismatch_error true false false 1).1 (by decide)

/-- C8: for a map or set field with a length attribute, the decoder
generated with `ensure_ordered` requires each newly read key to compare
strictly greater than the previous one and fails with a recoverable
format error on violation, while without `ensure_ordered` any key order
decodes successfully and duplicates resolve per the container's own
insertion semantics — last write wins for maps. -/
theorem ensure_ordered_policy (w : Nat) (k : ScalarTy) (vt : Ty)
    (ps : List (Nat × Val)) (ks : List Nat) (r : List Nat)
    (hplen : ps.length < 256 ^ w) (hklen : ks.length < 256 ^ w)
    (hpkeys : ∀ p ∈ ps, p.1 < 256 ^ k.width) (hkkeys : ∀ x ∈ ks, x < 256 ^ k.width)
    (hvals : validEntries vt ps = true) :
    (decodeVal (Ty.mapLen w true k vt)
        (leBytes w ps.length ++ encodeEntries k vt ps ++ r) =
      (if strictIncr (ps.map Prod.fst) then some (Val.map ps, r) else none)) ∧
    (decodeVal (Ty.mapLen w false k vt)
        (leBytes w ps.length ++ encodeEntries k vt ps ++ r) =
      some (Val.map (mapFromList ps), r)) ∧
    (decodeVal (Ty.setLen w true k)
        (leBytes w ks.length ++ (ks.map (leBytes k.width)).flatten ++ r) =
      (if strictIncr ks then some (Val.set ks, r) else none)) ∧
    (decodeVal (Ty.setLen w false k)
        (leBytes w ks.length ++ (ks.map (leBytes k.width)).flatten ++ r) =
      some (Val.set (setFromList ks), r)) ∧
    (∀ key v1 v2, mapFromList [(key, v1), (key, v2)] = [(key, v2)]) := by
  have hvmem := validEntries_mem vt ps hvals
  have hrt : ∀ p ∈ ps, ∀ r2, decodeVal vt (encodeVal vt p.2 ++ r2) = some (p.2, r2) :=
    fun p hp r2 => decode_encode p.2 vt r2 (hvmem p hp)
  refine ⟨?_, ?_, ?_, ?_, ?_⟩
  · simp only [List.append_assoc]
    by_cases hc : chainLt none (ps.map Prod.fst) = true
    · simp [decodeVal, readLE_leBytes_lt w ps.length _ hplen,
        decodeEntriesOrd_encodeEntries k vt ps none r hpkeys hrt, strictIncr, hc]
    · simp [decodeVal, readLE_leBytes_lt w ps.length _ hplen,
        decodeEntriesOrd_encodeEntries k vt ps none r hpkeys hrt, strictIncr, hc]
  · simp only [List.append_assoc]
    simp [decodeVal, readLE_leBytes_lt w ps.length _ hplen,
      decodeEntries_encodeEntries k vt ps r hpkeys hrt]
  · simp only [List.append_assoc]
    by_cases hc : chainLt none ks = true
    · simp [decodeVal, readLE_leBytes_lt w ks.length _ hklen,
        readKeysOrd_encode k.width ks none r hkkeys, strictIncr, hc]
    · simp [decodeVal, readLE_leBytes_lt w ks.length _ hklen,
        readKeysOrd_encode k.width ks none r hkkeys, strictIncr, hc]
  · simp only [List.append_assoc]
    simp [decodeVal, readLE_leBytes_lt w ks.length _ hklen,
      readKeys_encode k.width ks r hkkeys]
  · intro key v1 v2
    simp [mapFromList, insertEntry]

/-- Witness for `ensure_ordered_policy`: decoding a two-entry map whose
keys are not strictly increasing fails under `ensure_ordered`. -/
theorem ensure_ordered_policy_witness :
    decodeVal (Ty.mapLen 1 true ScalarTy.u8 (Ty.scalar ScalarTy.u8))
      (leBytes 1 2 ++ encodeEntries ScalarTy.u8 (Ty.scalar ScalarTy.u8)
        [(2, Val.num 0), (1, Val.num 0)] ++ []) = none := by
  have h := (ensure_ordered_policy 1 ScalarTy.u8 (Ty.scalar ScalarTy.u8)
    [(2, Val.num 0), (1, Val.num 0)] [] []
    (by norm_num) (by norm_num)
    (by simp [ScalarTy.width])
    (by simp)
    (by simp [validEntries, validVal, ScalarTy.width])).1
  simpa [strictIncr, chainLt] using h

/-- C10: for a non-low_level generated receive entry point, when the
stored state deserializes successfully and the user function returns
`Err`, the exported function returns -1 having performed no seek and no
write: the only store operation is the initial read and the stored bytes
after the call equal the stored bytes before it. -/
theorem state_unchanged_on_user_error {σ : Type} (payable : Bool) (amount : Nat)
    (get_state : List Nat → Option σ) (serial_state : σ → Option (List Nat))
    (user_fn : σ → Except Unit (Int × σ)) (store : List Nat) (s : σ)
    (hgate : payable = true ∨ amount = 0)
    (hget : get_state store = some s)
    (herr : user_fn s = .error ()) :
    receiveWrapper payable amount get_state serial_state user_fn store =
      ⟨some (-1), store, [StoreEv.read], 1⟩ ∧
    ([StoreEv.read].all fun e => !e.isSeekOrWrite) = true := by
  refine ⟨?_, rfl⟩
  have hcond : ¬(payable = false ∧ amount ≠ 0) := by
    rcases hgate with h | h <;> simp [h]
  simp [receiveWrapper, hcond, hget, herr]

/-- Witness for `state_unchanged_on_user_error`: a rejecting user
function leaves the store untouched. -/
theorem state_unchanged_on_user_error_witness :
    receiveWrapper false 0 (fun _ => some (5 : Nat)) (fun _ => some [])
      (fun _ => .error ()) [1, 2] = ⟨some (-1), [1, 2], [StoreEv.read], 1⟩ :=
  (state_unchanged_on_user_error false 0 (fun _ => some (5 : Nat)) (fun _ => some [])
    (fun _ => .error ()) [1, 2] 5 (Or.inr rfl) rfl rfl).1

end CSD
